import Mathlib

/-!
Verification of the event-flow inventory model of the event-governance
scripts.  The merge logic appears twice in the repository:

* `EventFlowMapper.map_flows` in analyze_biopro_comprehensive.py
  (lines 300-332): two `defaultdict(list)` dictionaries are filled by
  unconditionally appending the service identifier for every published
  and consumed event name, the union of the key sets is sorted, and one
  flow record per event name is emitted with
  `is_orphaned = len(publishers) == 0 or len(consumers) == 0`.

* the flow-tracking loop of `main` in extract_with_consumers.py
  (lines 228-246): a plain insertion-ordered dictionary maps each event
  name to a publishers/consumers pair, and a service name is appended
  only when it is not already present in the corresponding list.

Both are embedded below over association lists that keep Python dict
insertion order.  A `ServiceFact` bundles the per-service scan result
(the nested repository/service loops of the scripts are flattened into
one fact sequence, in scan order, exactly as the spec data model does).
-/

structure ServiceFact where
  service_id : String
  published : List String
  consumed : List String
deriving DecidableEq, Repr

/-- Python `defaultdict(list)` append: `d[k].append(v)`, creating the key
at the end of the dictionary when absent (insertion order preserved). -/
def dictAppend (m : List (String × List String)) (k v : String) :
    List (String × List String) :=
  match m with
  | [] => [(k, [v])]
  | (a, vs) :: rest =>
    if k = a then (a, vs ++ [v]) :: rest
    else (a, vs) :: dictAppend rest k v

/-- Python `d.get(k, [])` on the association list. -/
def lookupD (m : List (String × List String)) (k : String) : List String :=
  match m with
  | [] => []
  | (a, vs) :: rest => if k = a then vs else lookupD rest k

/-- Python `d.keys()` in insertion order. -/
def keys (m : List (String × List String)) : List String :=
  m.map Prod.fst

/-- One inner loop of map_flows: `for event_name in names:
d[event_name].append(service_id)`. -/
def addNames (m : List (String × List String)) (sid : String)
    (names : List String) : List (String × List String) :=
  names.foldl (fun acc e => dictAppend acc e sid) m

/-- The double loop of map_flows lines 308-316: one pass over the facts
filling `event_publishers` and `event_consumers` side by side. -/
def buildDicts (facts : List ServiceFact) :
    List (String × List String) × List (String × List String) :=
  facts.foldl
    (fun acc f =>
      (addNames acc.1 f.service_id f.published,
       addNames acc.2 f.service_id f.consumed))
    ([], [])

def event_publishers (facts : List ServiceFact) : List (String × List String) :=
  (buildDicts facts).1

def event_consumers (facts : List ServiceFact) : List (String × List String) :=
  (buildDicts facts).2

/-- The record appended by map_flows lines 325-330. -/
structure EventFlow where
  event : String
  publishers : List String
  consumers : List String
  is_orphaned : Bool
deriving DecidableEq, Repr

/-- An enumeration of `set(event_publishers) | set(event_consumers)`
(map_flows line 319); only its members matter because line 321 sorts it. -/
def eventNames (facts : List ServiceFact) : List String :=
  (keys (event_publishers facts) ++ keys (event_consumers facts)).dedup

/-- Lexicographic comparison of char lists by code point, the order
Python `sorted` uses on strings. -/
def strLeAux : List Char → List Char → Bool
  | [], _ => true
  | _ :: _, [] => false
  | a :: as, b :: bs =>
    if a.toNat < b.toNat then true
    else if b.toNat < a.toNat then false
    else strLeAux as bs

/-- Python string comparison: lexicographic by code point. -/
def strLe (a b : String) : Bool := strLeAux a.data b.data

/-- Python `sorted` on a list of strings. -/
def sortNames (l : List String) : List String :=
  l.insertionSort (fun a b => strLe a b = true)

/-- The flow record built for one event name (map_flows lines 322-330). -/
def mkFlow (facts : List ServiceFact) (e : String) : EventFlow :=
  let publishers := lookupD (event_publishers facts) e
  let consumers := lookupD (event_consumers facts) e
  { event := e, publishers := publishers, consumers := consumers,
    is_orphaned := publishers.length == 0 || consumers.length == 0 }

/-- The emission loop of map_flows lines 321-330, over a given name
enumeration. -/
def flowsOfEvents (facts : List ServiceFact) (events : List String) :
    List EventFlow :=
  events.map (mkFlow facts)

/-- `EventFlowMapper.map_flows` (analyze_biopro_comprehensive.py
lines 300-332) over the flattened fact sequence. -/
def map_flows (facts : List ServiceFact) : List EventFlow :=
  flowsOfEvents facts (sortNames (eventNames facts))

/-- The two count fields of the inventory summary built in `main`
(analyze_biopro_comprehensive.py lines 355-360). -/
structure Summary where
  total_events : Nat
  orphaned_events : Nat
deriving DecidableEq, Repr

def summaryOf (flows : List EventFlow) : Summary :=
  { total_events := flows.length,
    orphaned_events := (flows.filter (fun f => f.is_orphaned)).length }

/-- The `orphaned` query of the spec contract: the subsequence of flows
whose `is_orphaned` flag is set, in presentation order (it is what the
report loop at lines 381-387 iterates over). -/
def orphanedFlows (flows : List EventFlow) : List EventFlow :=
  flows.filter (fun f => f.is_orphaned)

/-- The per-event record of extract_with_consumers.py: a
publishers/consumers pair. -/
structure Flow2 where
  publishers : List String
  consumers : List String
deriving DecidableEq, Repr

/-- Python `event_flows.get(e)` on the insertion-ordered dictionary. -/
def getFlow (m : List (String × Flow2)) (e : String) : Option Flow2 :=
  match m with
  | [] => none
  | (a, fl) :: rest => if e = a then some fl else getFlow rest e

/-- Lines 229-236 of extract_with_consumers.py for one published event:
create the entry when absent, then append the service only when it is
not already among the publishers. -/
def addPublisher (m : List (String × Flow2)) (e sid : String) :
    List (String × Flow2) :=
  match m with
  | [] => [(e, ⟨[sid], []⟩)]
  | (a, fl) :: rest =>
    if e = a then
      (a, if sid ∈ fl.publishers then fl
          else ⟨fl.publishers ++ [sid], fl.consumers⟩) :: rest
    else (a, fl) :: addPublisher rest e sid

/-- Lines 239-246 of extract_with_consumers.py for one consumed event. -/
def addConsumer (m : List (String × Flow2)) (e sid : String) :
    List (String × Flow2) :=
  match m with
  | [] => [(e, ⟨[], [sid]⟩)]
  | (a, fl) :: rest =>
    if e = a then
      (a, if sid ∈ fl.consumers then fl
          else ⟨fl.publishers, fl.consumers ++ [sid]⟩) :: rest
    else (a, fl) :: addConsumer rest e sid

/-- Processing one service record in extract_with_consumers.py: the
publishers loop over its published events followed by the consumers loop
over its consumed events.  It is the `add_service_fact` of the spec. -/
def addServiceFact (m : List (String × Flow2)) (f : ServiceFact) :
    List (String × Flow2) :=
  let m1 := f.published.foldl (fun acc e => addPublisher acc e f.service_id) m
  f.consumed.foldl (fun acc e => addConsumer acc e f.service_id) m1

/-- The whole flow-tracking pass of `main` in extract_with_consumers.py
(lines 228-246) over the flattened fact sequence. -/
def trackFlows (facts : List ServiceFact) : List (String × Flow2) :=
  facts.foldl addServiceFact []

/-- Iteration order of the `event_flows` dictionary of
extract_with_consumers.py: Python dict insertion order. -/
def keys2 (m : List (String × Flow2)) : List String :=
  m.map Prod.fst

/-- The fold of map_flows restricted to one of the two dictionaries. -/
def foldDict (facts : List ServiceFact) (proj : ServiceFact → List String)
    (m : List (String × List String)) : List (String × List String) :=
  facts.foldl (fun acc f => addNames acc f.service_id (proj f)) m

/-- The list the dictionary of map_flows associates to event name e: one
copy of the service identifier per occurrence of e in the projected list
of each fact, in input sequence order. -/
def collectedFrom (facts : List ServiceFact) (proj : ServiceFact → List String)
    (e : String) : List String :=
  match facts with
  | [] => []
  | f :: rest =>
    List.replicate ((proj f).count e) f.service_id ++ collectedFrom rest proj e

/-- The given service is already recorded among the publishers of event e
in the extract_with_consumers flow state. -/
def memPub (m : List (String × Flow2)) (e sid : String) : Prop :=
  ∃ fl, getFlow m e = some fl ∧ sid ∈ fl.publishers

/-- The given service is already recorded among the consumers of event e
in the extract_with_consumers flow state. -/
def memCon (m : List (String × Flow2)) (e sid : String) : Prop :=
  ∃ fl, getFlow m e = some fl ∧ sid ∈ fl.consumers

/-! Order facts about the string comparison used by the sort. -/

theorem char_toNat_inj {a b : Char} (h : a.toNat = b.toNat) : a = b := by
  rw [← Char.ofNat_toNat a, ← Char.ofNat_toNat b, h]

theorem strLeAux_cons_iff (a b : Char) (as bs : List Char) :
    strLeAux (a :: as) (b :: bs) = true ↔
      a.toNat < b.toNat ∨ (a.toNat = b.toNat ∧ strLeAux as bs = true) := by
  simp only [strLeAux]
  split_ifs with h1 h2
  · simp [h1]
  · simp only [Bool.false_eq_true, false_iff]
    rintro (h | ⟨h, -⟩) <;> omega
  · have h : a.toNat = b.toNat := by omega
    simp [h]

theorem strLeAux_total : ∀ as bs : List Char,
    strLeAux as bs = true ∨ strLeAux bs as = true
  | [], _ => Or.inl rfl
  | _ :: _, [] => Or.inr rfl
  | a :: as, b :: bs => by
    rw [strLeAux_cons_iff, strLeAux_cons_iff]
    rcases Nat.lt_trichotomy a.toNat b.toNat with h | h | h
    · exact Or.inl (Or.inl h)
    · rcases strLeAux_total as bs with ih | ih
      · exact Or.inl (Or.inr ⟨h, ih⟩)
      · exact Or.inr (Or.inr ⟨h.symm, ih⟩)
    · exact Or.inr (Or.inl h)

theorem strLeAux_trans : ∀ as bs cs : List Char,
    strLeAux as bs = true → strLeAux bs cs = true → strLeAux as cs = true
  | [], _, _ => fun _ _ => rfl
  | _ :: _, [], _ => fun h _ => by simp [strLeAux] at h
  | _ :: _, _ :: _, [] => fun _ h => by simp [strLeAux] at h
  | a :: as, b :: bs, c :: cs => fun h1 h2 => by
    rw [strLeAux_cons_iff] at h1 h2 ⊢
    rcases h1 with h1 | ⟨h1, h1r⟩
    · rcases h2 with h2 | ⟨h2, -⟩
      · exact Or.inl (by omega)
      · exact Or.inl (by omega)
    · rcases h2 with h2 | ⟨h2, h2r⟩
      · exact Or.inl (by omega)
      · exact Or.inr ⟨by omega, strLeAux_trans as bs cs h1r h2r⟩

theorem strLeAux_antisymm : ∀ as bs : List Char,
    strLeAux as bs = true → strLeAux bs as = true → as = bs
  | [], [] => fun _ _ => rfl
  | [], _ :: _ => fun _ h => by simp [strLeAux] at h
  | _ :: _, [] => fun h _ => by simp [strLeAux] at h
  | a :: as, b :: bs => fun h1 h2 => by
    rw [strLeAux_cons_iff] at h1 h2
    have hab : a.toNat = b.toNat := by
      rcases h1 with h | ⟨h, -⟩ <;> rcases h2 with h' | ⟨h', -⟩ <;> omega
    have h1r : strLeAux as bs = true := by
      rcases h1 with h | ⟨-, h⟩
      · omega
      · exact h
    have h2r : strLeAux bs as = true := by
      rcases h2 with h | ⟨-, h⟩
      · omega
      · exact h
    rw [char_toNat_inj hab, strLeAux_antisymm as bs h1r h2r]

theorem strLe_total (a b : String) : strLe a b = true ∨ strLe b a = true :=
  strLeAux_total a.data b.data

theorem strLe_trans (a b c : String) (h1 : strLe a b = true)
    (h2 : strLe b c = true) : strLe a c = true :=
  strLeAux_trans a.data b.data c.data h1 h2

theorem strLe_antisymm (a b : String) (h1 : strLe a b = true)
    (h2 : strLe b a = true) : a = b := by
  cases a with
  | mk as =>
    cases b with
    | mk bs => exact congrArg String.mk (strLeAux_antisymm as bs h1 h2)

instance : IsTotal String (fun a b => strLe a b = true) :=
  ⟨strLe_total⟩

instance : IsTrans String (fun a b => strLe a b = true) :=
  ⟨fun a b c => strLe_trans a b c⟩

instance : IsAntisymm String (fun a b => strLe a b = true) :=
  ⟨strLe_antisymm⟩

/-! Characterization of the dictionaries built by map_flows. -/

theorem lookupD_dictAppend (m : List (String × List String)) (k v e : String) :
    lookupD (dictAppend m k v) e =
      if e = k then lookupD m e ++ [v] else lookupD m e := by
  induction m with
  | nil => by_cases h : e = k <;> simp [dictAppend, lookupD, h]
  | cons p rest ih =>
    obtain ⟨a, vs⟩ := p
    by_cases hk : k = a
    · subst hk
      by_cases he : e = k <;> simp [dictAppend, lookupD, he]
    · by_cases he : e = a
      · subst he
        have : ¬ e = k := fun h => hk h.symm
        simp [dictAppend, lookupD, hk, this]
      · simp [dictAppend, lookupD, hk, he, ih]

theorem mem_keys_dictAppend (m : List (String × List String)) (k v e : String) :
    e ∈ keys (dictAppend m k v) ↔ e ∈ keys m ∨ e = k := by
  induction m with
  | nil => simp [dictAppend, keys]
  | cons p rest ih =>
    obtain ⟨a, vs⟩ := p
    by_cases hk : k = a
    · subst hk
      simp [dictAppend, keys]
      tauto
    · simp [dictAppend, keys, hk] at ih ⊢
      tauto

theorem lookupD_addNames (names : List String) (m : List (String × List String))
    (sid e : String) :
    lookupD (addNames m sid names) e =
      lookupD m e ++ List.replicate (names.count e) sid := by
  induction names generalizing m with
  | nil => simp [addNames]
  | cons n rest ih =>
    have step : addNames m sid (n :: rest) = addNames (dictAppend m n sid) sid rest := by
      simp [addNames]
    rw [step, ih, lookupD_dictAppend, List.count_cons]
    by_cases h : e = n
    · simp [h, List.replicate_succ, List.append_assoc]
    · simp [h]
      exact fun hh => h hh.symm

theorem mem_keys_addNames (names : List String) (m : List (String × List String))
    (sid e : String) :
    e ∈ keys (addNames m sid names) ↔ e ∈ keys m ∨ e ∈ names := by
  induction names generalizing m with
  | nil => simp [addNames]
  | cons n rest ih =>
    have step : addNames m sid (n :: rest) = addNames (dictAppend m n sid) sid rest := by
      simp [addNames]
    rw [step, ih, mem_keys_dictAppend]
    simp
    tauto

theorem buildDicts_go (facts : List ServiceFact)
    (m1 m2 : List (String × List String)) :
    facts.foldl
      (fun acc f =>
        (addNames acc.1 f.service_id f.published,
         addNames acc.2 f.service_id f.consumed))
      (m1, m2) =
    (foldDict facts (fun f => f.published) m1,
     foldDict facts (fun f => f.consumed) m2) := by
  induction facts generalizing m1 m2 with
  | nil => rfl
  | cons f rest ih =>
    simp only [List.foldl_cons, foldDict] at ih ⊢
    exact ih _ _

theorem event_publishers_eq (facts : List ServiceFact) :
    event_publishers facts = foldDict facts (fun f => f.published) [] := by
  rw [event_publishers, buildDicts, buildDicts_go]

theorem event_consumers_eq (facts : List ServiceFact) :
    event_consumers facts = foldDict facts (fun f => f.consumed) [] := by
  rw [event_consumers, buildDicts, buildDicts_go]

theorem lookupD_foldDict (facts : List ServiceFact)
    (proj : ServiceFact → List String) (m : List (String × List String))
    (e : String) :
    lookupD (foldDict facts proj m) e = lookupD m e ++ collectedFrom facts proj e := by
  induction facts generalizing m with
  | nil => simp [foldDict, collectedFrom]
  | cons f rest ih =>
    have step : foldDict (f :: rest) proj m =
        foldDict rest proj (addNames m f.service_id (proj f)) := by
      simp [foldDict]
    rw [step, ih, lookupD_addNames, collectedFrom, List.append_assoc]

theorem mem_keys_foldDict (facts : List ServiceFact)
    (proj : ServiceFact → List String) (m : List (String × List String))
    (e : String) :
    e ∈ keys (foldDict facts proj m) ↔ e ∈ keys m ∨ ∃ f ∈ facts, e ∈ proj f := by
  induction facts generalizing m with
  | nil => simp [foldDict]
  | cons f rest ih =>
    have step : foldDict (f :: rest) proj m =
        foldDict rest proj (addNames m f.service_id (proj f)) := by
      simp [foldDict]
    rw [step, ih, mem_keys_addNames]
    simp
    tauto

theorem lookupD_event_publishers (facts : List ServiceFact) (e : String) :
    lookupD (event_publishers facts) e =
      collectedFrom facts (fun f => f.published) e := by
  rw [event_publishers_eq, lookupD_foldDict]
  simp [lookupD]

theorem lookupD_event_consumers (facts : List ServiceFact) (e : String) :
    lookupD (event_consumers facts) e =
      collectedFrom facts (fun f => f.consumed) e := by
  rw [event_consumers_eq, lookupD_foldDict]
  simp [lookupD]

theorem mem_eventNames (facts : List ServiceFact) (e : String) :
    e ∈ eventNames facts ↔
      (∃ f ∈ facts, e ∈ f.published) ∨ (∃ f ∈ facts, e ∈ f.consumed) := by
  rw [eventNames, List.mem_dedup, List.mem_append,
    event_publishers_eq, event_consumers_eq,
    mem_keys_foldDict, mem_keys_foldDict]
  simp [keys]

theorem collectedFrom_eq_nil_iff (facts : List ServiceFact)
    (proj : ServiceFact → List String) (e : String) :
    collectedFrom facts proj e = [] ↔ ∀ f ∈ facts, e ∉ proj f := by
  induction facts with
  | nil => simp [collectedFrom]
  | cons f rest ih =>
    simp [collectedFrom, List.append_eq_nil, ih, List.replicate_eq_nil_iff,
      List.count_eq_zero]

theorem collectedFrom_perm {facts facts2 : List ServiceFact}
    (proj : ServiceFact → List String) (e : String)
    (h : List.Perm facts facts2) :
    List.Perm (collectedFrom facts proj e) (collectedFrom facts2 proj e) := by
  induction h with
  | nil => exact List.Perm.refl _
  | cons f _ ih => exact ih.append_left _
  | swap f g rest =>
    show List.Perm
      (List.replicate ((proj g).count e) g.service_id ++
        (List.replicate ((proj f).count e) f.service_id ++
          collectedFrom rest proj e))
      (List.replicate ((proj f).count e) f.service_id ++
        (List.replicate ((proj g).count e) g.service_id ++
          collectedFrom rest proj e))
    rw [← List.append_assoc, ← List.append_assoc]
    exact List.perm_append_comm.append_right _
  | trans _ _ ih1 ih2 => exact ih1.trans ih2

theorem collectedFrom_of_nodup (facts : List ServiceFact)
    (proj : ServiceFact → List String) (e : String)
    (h : ∀ f ∈ facts, (proj f).Nodup) :
    collectedFrom facts proj e =
      (facts.filter (fun f => decide (e ∈ proj f))).map
        (fun f => f.service_id) := by
  induction facts with
  | nil => rfl
  | cons f rest ih =>
    rw [collectedFrom, List.filter_cons]
    have ih2 := ih (fun g hg => h g (List.mem_cons_of_mem f hg))
    by_cases hm : e ∈ proj f
    · rw [List.count_eq_one_of_mem (h f (List.mem_cons_self f rest)) hm]
      simp [hm, List.replicate_succ, ih2]
    · rw [List.count_eq_zero.mpr hm]
      simp [hm, ih2]

theorem mkFlow_event (facts : List ServiceFact) (e : String) :
    (mkFlow facts e).event = e := rfl

theorem mkFlow_publishers (facts : List ServiceFact) (e : String) :
    (mkFlow facts e).publishers = collectedFrom facts (fun f => f.published) e :=
  lookupD_event_publishers facts e

theorem mkFlow_consumers (facts : List ServiceFact) (e : String) :
    (mkFlow facts e).consumers = collectedFrom facts (fun f => f.consumed) e :=
  lookupD_event_consumers facts e

theorem mkFlow_orphan_iff (facts : List ServiceFact) (e : String) :
    (mkFlow facts e).is_orphaned = true ↔
      (mkFlow facts e).publishers = [] ∨ (mkFlow facts e).consumers = [] := by
  show ((lookupD (event_publishers facts) e).length == 0 ||
      (lookupD (event_consumers facts) e).length == 0) = true ↔ _
  simp [mkFlow, List.length_eq_zero]

theorem mem_map_flows (facts : List ServiceFact) (fl : EventFlow) :
    fl ∈ map_flows facts ↔
      ∃ e, ((∃ f ∈ facts, e ∈ f.published) ∨ (∃ f ∈ facts, e ∈ f.consumed)) ∧
        fl = mkFlow facts e := by
  rw [map_flows, flowsOfEvents, List.mem_map]
  constructor
  · rintro ⟨e, he, rfl⟩
    refine ⟨e, ?_, rfl⟩
    rw [← mem_eventNames]
    exact (List.Perm.mem_iff (List.perm_insertionSort _ _)).mp he
  · rintro ⟨e, he, rfl⟩
    exact ⟨e, (List.Perm.mem_iff (List.perm_insertionSort _ _)).mpr
      ((mem_eventNames facts e).mpr he), rfl⟩

theorem sortNames_perm (l : List String) : List.Perm (sortNames l) l :=
  List.perm_insertionSort _ l

theorem sortNames_sorted (l : List String) :
    List.Sorted (fun a b => strLe a b = true) (sortNames l) :=
  List.sorted_insertionSort _ l

theorem sortNames_congr {l1 l2 : List String} (h1 : l1.Nodup) (h2 : l2.Nodup)
    (h : ∀ x, x ∈ l1 ↔ x ∈ l2) : sortNames l1 = sortNames l2 := by
  have hp : List.Perm l1 l2 := (List.perm_ext_iff_of_nodup h1 h2).mpr h
  exact List.eq_of_perm_of_sorted
    ((sortNames_perm l1).trans (hp.trans (sortNames_perm l2).symm))
    (sortNames_sorted l1) (sortNames_sorted l2)

theorem eventNames_nodup (facts : List ServiceFact) : (eventNames facts).Nodup :=
  List.nodup_dedup _

theorem mkFlow_orphan_perm {facts facts2 : List ServiceFact}
    (hp : List.Perm facts facts2) (e : String) :
    (mkFlow facts e).is_orphaned = (mkFlow facts2 e).is_orphaned := by
  show ((lookupD (event_publishers facts) e).length == 0 ||
      (lookupD (event_consumers facts) e).length == 0) =
    ((lookupD (event_publishers facts2) e).length == 0 ||
      (lookupD (event_consumers facts2) e).length == 0)
  rw [lookupD_event_publishers, lookupD_event_consumers,
    lookupD_event_publishers, lookupD_event_consumers,
    (collectedFrom_perm (fun f => f.published) e hp).length_eq,
    (collectedFrom_perm (fun f => f.consumed) e hp).length_eq]

theorem exists_flow_iff (facts : List ServiceFact) (e : String) :
    (∃ fl ∈ map_flows facts, fl.event = e) ↔
      (∃ f ∈ facts, e ∈ f.published) ∨ (∃ f ∈ facts, e ∈ f.consumed) := by
  constructor
  · rintro ⟨fl, hfl, hev⟩
    obtain ⟨e2, he2, rfl⟩ := (mem_map_flows facts fl).mp hfl
    rw [mkFlow_event] at hev
    subst hev
    exact he2
  · intro h
    exact ⟨mkFlow facts e, (mem_map_flows facts _).mpr ⟨e, h, rfl⟩,
      mkFlow_event facts e⟩

/-- C3: union completeness — the event keys of the mapping built by
map_flows are exactly the union of all names appearing in any published
or consumed set of the input facts; no key is missing and no extra key
appears. -/
theorem map_flows_union_complete (facts : List ServiceFact) (e : String) :
    (∃ fl ∈ map_flows facts, fl.event = e) ↔
      (∃ f ∈ facts, e ∈ f.published) ∨ (∃ f ∈ facts, e ∈ f.consumed) :=
  exists_flow_iff facts e

/-- C2: in the mapping built by map_flows a flow is orphaned exactly when
its publishers list or its consumers list is empty (so an event with at
least one publisher and at least one consumer is never orphaned, whatever
the counts), and the flag of an event name is the same for every
permutation of the input fact sequence. -/
theorem map_flows_orphan_correct (facts facts2 : List ServiceFact)
    (hp : List.Perm facts facts2) :
    (∀ fl ∈ map_flows facts,
      (fl.is_orphaned = true ↔ fl.publishers = [] ∨ fl.consumers = [])) ∧
    (∀ fl ∈ map_flows facts, ∀ fl2 ∈ map_flows facts2,
      fl.event = fl2.event → fl.is_orphaned = fl2.is_orphaned) := by
  constructor
  · intro fl hfl
    obtain ⟨e, -, rfl⟩ := (mem_map_flows facts fl).mp hfl
    exact mkFlow_orphan_iff facts e
  · intro fl hfl fl2 hfl2 hev
    obtain ⟨e, -, rfl⟩ := (mem_map_flows facts fl).mp hfl
    obtain ⟨e2, -, rfl⟩ := (mem_map_flows facts2 fl2).mp hfl2
    rw [mkFlow_event, mkFlow_event] at hev
    subst hev
    exact mkFlow_orphan_perm hp _

/-- Witness for C2 at a concrete publisher/consumer pair of facts and a
transposition of it. -/
theorem map_flows_orphan_correct_witness :
    List.Perm
      [ServiceFact.mk "A" ["OrderCreatedEvent"] [],
       ServiceFact.mk "B" [] ["OrderCreatedEvent"]]
      [ServiceFact.mk "B" [] ["OrderCreatedEvent"],
       ServiceFact.mk "A" ["OrderCreatedEvent"] []] ∧
    ((∀ fl ∈ map_flows
        [ServiceFact.mk "A" ["OrderCreatedEvent"] [],
         ServiceFact.mk "B" [] ["OrderCreatedEvent"]],
      (fl.is_orphaned = true ↔ fl.publishers = [] ∨ fl.consumers = [])) ∧
    (∀ fl ∈ map_flows
        [ServiceFact.mk "A" ["OrderCreatedEvent"] [],
         ServiceFact.mk "B" [] ["OrderCreatedEvent"]],
      ∀ fl2 ∈ map_flows
        [ServiceFact.mk "B" [] ["OrderCreatedEvent"],
         ServiceFact.mk "A" ["OrderCreatedEvent"] []],
      fl.event = fl2.event → fl.is_orphaned = fl2.is_orphaned)) :=
  ⟨by decide, map_flows_orphan_correct _ _ (by decide)⟩

/-- C4 (amended): map_flows presents its flows sorted ascending by event
name (lexicographic code-point order) with pairwise distinct names, a
pure function of the input sequence. -/
theorem map_flows_sorted_presentation (facts : List ServiceFact) :
    List.Sorted (fun a b => strLe a b = true)
      ((map_flows facts).map (fun fl => fl.event)) ∧
    ((map_flows facts).map (fun fl => fl.event)).Nodup := by
  have hev : (map_flows facts).map (fun fl => fl.event) =
      sortNames (eventNames facts) := by
    rw [map_flows, flowsOfEvents, List.map_map]
    have hc : ((fun fl => fl.event) ∘ mkFlow facts) = id :=
      funext (fun e => mkFlow_event facts e)
    rw [hc, List.map_id]
  rw [hev]
  exact ⟨sortNames_sorted _,
    ((sortNames_perm (eventNames facts)).nodup_iff).mpr (eventNames_nodup facts)⟩

/-- C4 counterexample: the event_flows mapping of extract_with_consumers
iterates in first-seen insertion order, which is not sorted ascending by
event name. -/
theorem trackFlows_presentation_not_sorted :
    keys2 (trackFlows
      [ServiceFact.mk "S" ["Zed"] [], ServiceFact.mk "T" ["Alpha"] []]) =
      ["Zed", "Alpha"] ∧
    ¬ List.Sorted (fun a b => strLe a b = true)
      (keys2 (trackFlows
        [ServiceFact.mk "S" ["Zed"] [], ServiceFact.mk "T" ["Alpha"] []])) :=
  ⟨rfl, by decide⟩

/-- C5: for well-formed facts (pairwise distinct service ids, duplicate
free published and consumed lists) each flow of map_flows lists exactly
the service ids of the facts mentioning its event, in first-seen input
sequence order and without duplicates. -/
theorem map_flows_first_seen_order (facts : List ServiceFact)
    (hid : (facts.map (fun f => f.service_id)).Nodup)
    (hpub : ∀ f ∈ facts, f.published.Nodup)
    (hcon : ∀ f ∈ facts, f.consumed.Nodup) :
    ∀ fl ∈ map_flows facts,
      fl.publishers =
        (facts.filter (fun f => decide (fl.event ∈ f.published))).map
          (fun f => f.service_id) ∧
      fl.consumers =
        (facts.filter (fun f => decide (fl.event ∈ f.consumed))).map
          (fun f => f.service_id) ∧
      fl.publishers.Nodup ∧ fl.consumers.Nodup := by
  intro fl hfl
  obtain ⟨e, -, rfl⟩ := (mem_map_flows facts fl).mp hfl
  have hp : (mkFlow facts e).publishers =
      (facts.filter (fun f => decide (e ∈ f.published))).map
        (fun f => f.service_id) := by
    rw [mkFlow_publishers, collectedFrom_of_nodup facts _ e hpub]
  have hc : (mkFlow facts e).consumers =
      (facts.filter (fun f => decide (e ∈ f.consumed))).map
        (fun f => f.service_id) := by
    rw [mkFlow_consumers, collectedFrom_of_nodup facts _ e hcon]
  have hnp : (mkFlow facts e).publishers.Nodup := by
    rw [hp]
    exact ((List.filter_sublist facts).map (fun f => f.service_id)).nodup hid
  have hnc : (mkFlow facts e).consumers.Nodup := by
    rw [hc]
    exact ((List.filter_sublist facts).map (fun f => f.service_id)).nodup hid
  rw [mkFlow_event]
  exact ⟨hp, hc, hnp, hnc⟩

/-- Witness for C5: two publishers recorded in first-seen order, which is
not the alphabetical order of their service ids. -/
theorem map_flows_first_seen_order_witness :
    (∀ fl ∈ map_flows
        [ServiceFact.mk "zsvc" ["E"] [], ServiceFact.mk "asvc" ["E"] ["F"]],
      fl.publishers =
        (([ServiceFact.mk "zsvc" ["E"] [],
           ServiceFact.mk "asvc" ["E"] ["F"]].filter
            (fun f => decide (fl.event ∈ f.published))).map
          (fun f => f.service_id)) ∧
      fl.consumers =
        (([ServiceFact.mk "zsvc" ["E"] [],
           ServiceFact.mk "asvc" ["E"] ["F"]].filter
            (fun f => decide (fl.event ∈ f.consumed))).map
          (fun f => f.service_id)) ∧
      fl.publishers.Nodup ∧ fl.consumers.Nodup) ∧
    (map_flows
        [ServiceFact.mk "zsvc" ["E"] [],
         ServiceFact.mk "asvc" ["E"] ["F"]]).map
      (fun fl => fl.publishers) = [["zsvc", "asvc"], []] :=
  ⟨map_flows_first_seen_order _ (by decide) (by decide) (by decide), by decide⟩

/-- C6: permuting the input fact sequence does not change which events
appear in the mapping, which of them are orphaned, nor the multiset of
publishers or consumers of any event; only the order within those lists
may change. -/
theorem map_flows_order_independence (facts facts2 : List ServiceFact)
    (hp : List.Perm facts facts2) (e : String) :
    ((∃ fl ∈ map_flows facts, fl.event = e) ↔
      (∃ fl ∈ map_flows facts2, fl.event = e)) ∧
    (∀ fl ∈ map_flows facts, ∀ fl2 ∈ map_flows facts2,
      fl.event = e → fl2.event = e →
        fl.is_orphaned = fl2.is_orphaned ∧
        List.Perm fl.publishers fl2.publishers ∧
        List.Perm fl.consumers fl2.consumers) := by
  constructor
  · rw [exists_flow_iff, exists_flow_iff]
    constructor
    · rintro (⟨f, hf, hm⟩ | ⟨f, hf, hm⟩)
      · exact Or.inl ⟨f, hp.mem_iff.mp hf, hm⟩
      · exact Or.inr ⟨f, hp.mem_iff.mp hf, hm⟩
    · rintro (⟨f, hf, hm⟩ | ⟨f, hf, hm⟩)
      · exact Or.inl ⟨f, hp.mem_iff.mpr hf, hm⟩
      · exact Or.inr ⟨f, hp.mem_iff.mpr hf, hm⟩
  · intro fl hfl fl2 hfl2 hev hev2
    obtain ⟨e1, -, rfl⟩ := (mem_map_flows facts fl).mp hfl
    obtain ⟨e2, -, rfl⟩ := (mem_map_flows facts2 fl2).mp hfl2
    rw [mkFlow_event] at hev hev2
    subst hev
    subst hev2
    refine ⟨mkFlow_orphan_perm hp _, ?_, ?_⟩
    · rw [mkFlow_publishers, mkFlow_publishers]
      exact collectedFrom_perm _ _ hp
    · rw [mkFlow_consumers, mkFlow_consumers]
      exact collectedFrom_perm _ _ hp

/-- Witness for C6 at a concrete three-fact input and a rotation of it. -/
theorem map_flows_order_independence_witness :
    List.Perm
      [ServiceFact.mk "p" ["X"] [], ServiceFact.mk "c1" [] ["X"],
       ServiceFact.mk "c2" [] ["X"]]
      [ServiceFact.mk "c2" [] ["X"], ServiceFact.mk "p" ["X"] [],
       ServiceFact.mk "c1" [] ["X"]] ∧
    (((∃ fl ∈ map_flows
        [ServiceFact.mk "p" ["X"] [], ServiceFact.mk "c1" [] ["X"],
         ServiceFact.mk "c2" [] ["X"]], fl.event = "X") ↔
      (∃ fl ∈ map_flows
        [ServiceFact.mk "c2" [] ["X"], ServiceFact.mk "p" ["X"] [],
         ServiceFact.mk "c1" [] ["X"]], fl.event = "X")) ∧
    (∀ fl ∈ map_flows
        [ServiceFact.mk "p" ["X"] [], ServiceFact.mk "c1" [] ["X"],
         ServiceFact.mk "c2" [] ["X"]],
      ∀ fl2 ∈ map_flows
        [ServiceFact.mk "c2" [] ["X"], ServiceFact.mk "p" ["X"] [],
         ServiceFact.mk "c1" [] ["X"]],
      fl.event = "X" → fl2.event = "X" →
        fl.is_orphaned = fl2.is_orphaned ∧
        List.Perm fl.publishers fl2.publishers ∧
        List.Perm fl.consumers fl2.consumers)) :=
  ⟨by decide, map_flows_order_independence _ _ (by decide) "X"⟩

/-- C7: the summary total is the number of flow entries and the orphaned
count is the length of the orphaned subsequence, which never exceeds the
total. -/
theorem summaryOf_counts (flows : List EventFlow) :
    (summaryOf flows).total_events = flows.length ∧
    (summaryOf flows).orphaned_events = (orphanedFlows flows).length ∧
    (summaryOf flows).orphaned_events ≤ (summaryOf flows).total_events :=
  ⟨rfl, rfl, List.length_filter_le _ _⟩

/-- C8: on the empty fact sequence both merges return the empty mapping
and the summary reports zero events and zero orphans; totality itself is
witnessed by the embedding being a total function. -/
theorem merge_empty_input :
    map_flows [] = [] ∧ trackFlows [] = [] ∧
    summaryOf (map_flows []) = Summary.mk 0 0 :=
  ⟨rfl, rfl, rfl⟩

/-- C9: determinism of the build — whatever duplicate free enumeration of
the event name set a run obtains from the Python set, sorting it yields
the same flow list, so two runs on the same input produce identical
output. -/
theorem build_run_deterministic (facts : List ServiceFact)
    (names1 names2 : List String)
    (h1 : names1.Nodup) (h2 : names2.Nodup)
    (hc1 : ∀ x, x ∈ names1 ↔ x ∈ eventNames facts)
    (hc2 : ∀ x, x ∈ names2 ↔ x ∈ eventNames facts) :
    flowsOfEvents facts (sortNames names1) =
      flowsOfEvents facts (sortNames names2) ∧
    flowsOfEvents facts (sortNames names1) = map_flows facts := by
  have e1 : sortNames names1 = sortNames (eventNames facts) :=
    sortNames_congr h1 (eventNames_nodup facts) hc1
  have e2 : sortNames names2 = sortNames (eventNames facts) :=
    sortNames_congr h2 (eventNames_nodup facts) hc2
  rw [e1, e2]
  exact ⟨rfl, rfl⟩

/-- Witness for C9: two opposite enumerations of the same two-event set
produce the same built output. -/
theorem build_run_deterministic_witness :
    flowsOfEvents [ServiceFact.mk "A" ["X"] ["Y"]] (sortNames ["Y", "X"]) =
      flowsOfEvents [ServiceFact.mk "A" ["X"] ["Y"]] (sortNames ["X", "Y"]) ∧
    flowsOfEvents [ServiceFact.mk "A" ["X"] ["Y"]] (sortNames ["Y", "X"]) =
      map_flows [ServiceFact.mk "A" ["X"] ["Y"]] :=
  build_run_deterministic [ServiceFact.mk "A" ["X"] ["Y"]] ["Y", "X"] ["X", "Y"]
    (by decide) (by decide)
    (by
      intro x
      have h : eventNames [ServiceFact.mk "A" ["X"] ["Y"]] = ["X", "Y"] := by
        decide
      rw [h]
      simp [List.mem_cons]
      tauto)
    (by
      intro x
      have h : eventNames [ServiceFact.mk "A" ["X"] ["Y"]] = ["X", "Y"] := by
        decide
      rw [h])

/-! Idempotence machinery for the extract_with_consumers merge. -/

theorem memPub_addPublisher (m : List (String × Flow2)) (e sid : String) :
    memPub (addPublisher m e sid) e sid := by
  induction m with
  | nil =>
    exact ⟨⟨[sid], []⟩, by simp [addPublisher, getFlow], by simp⟩
  | cons p rest ih =>
    obtain ⟨a, fl⟩ := p
    by_cases hea : e = a
    · subst hea
      by_cases hs : sid ∈ fl.publishers
      · exact ⟨fl, by simp [addPublisher, getFlow, hs], hs⟩
      · refine ⟨⟨fl.publishers ++ [sid], fl.consumers⟩,
          by simp [addPublisher, getFlow, hs], by simp⟩
    · obtain ⟨fl2, hget, hmem⟩ := ih
      exact ⟨fl2, by simp [addPublisher, getFlow, hea, hget], hmem⟩

theorem memCon_addConsumer (m : List (String × Flow2)) (e sid : String) :
    memCon (addConsumer m e sid) e sid := by
  induction m with
  | nil =>
    exact ⟨⟨[], [sid]⟩, by simp [addConsumer, getFlow], by simp⟩
  | cons p rest ih =>
    obtain ⟨a, fl⟩ := p
    by_cases hea : e = a
    · subst hea
      by_cases hs : sid ∈ fl.consumers
      · exact ⟨fl, by simp [addConsumer, getFlow, hs], hs⟩
      · refine ⟨⟨fl.publishers, fl.consumers ++ [sid]⟩,
          by simp [addConsumer, getFlow, hs], by simp⟩
    · obtain ⟨fl2, hget, hmem⟩ := ih
      exact ⟨fl2, by simp [addConsumer, getFlow, hea, hget], hmem⟩

theorem memPub_mono_addPublisher (m : List (String × Flow2)) (e2 sid2 : String)
    {e sid : String} (h : memPub m e sid) :
    memPub (addPublisher m e2 sid2) e sid := by
  induction m with
  | nil =>
    obtain ⟨fl, hget, -⟩ := h
    simp [getFlow] at hget
  | cons p rest ih =>
    obtain ⟨a, fl⟩ := p
    obtain ⟨fl1, hget, hmem⟩ := h
    by_cases hea : e = a
    · subst hea
      rw [getFlow, if_pos rfl] at hget
      have hEq : fl1 = fl := (Option.some_injective _ hget).symm
      subst hEq
      by_cases h2 : e2 = e
      · subst h2
        by_cases hs : sid2 ∈ fl1.publishers
        · exact ⟨fl1, by simp [addPublisher, getFlow, hs], hmem⟩
        · exact ⟨⟨fl1.publishers ++ [sid2], fl1.consumers⟩,
            by simp [addPublisher, getFlow, hs],
            by simp [List.mem_append, hmem]⟩
      · refine ⟨fl1, ?_, hmem⟩
        have h2s : ¬ e2 = e := h2
        simp [addPublisher, getFlow, h2s]
    · rw [getFlow, if_neg hea] at hget
      by_cases h2 : e2 = a
      · subst h2
        exact ⟨fl1, by simp [addPublisher, getFlow, hea, hget], hmem⟩
      · obtain ⟨fl2, hget2, hmem2⟩ := ih ⟨fl1, hget, hmem⟩
        exact ⟨fl2, by simp [addPublisher, getFlow, hea, h2, hget2], hmem2⟩

theorem memPub_mono_addConsumer (m : List (String × Flow2)) (e2 sid2 : String)
    {e sid : String} (h : memPub m e sid) :
    memPub (addConsumer m e2 sid2) e sid := by
  induction m with
  | nil =>
    obtain ⟨fl, hget, -⟩ := h
    simp [getFlow] at hget
  | cons p rest ih =>
    obtain ⟨a, fl⟩ := p
    obtain ⟨fl1, hget, hmem⟩ := h
    by_cases hea : e = a
    · subst hea
      rw [getFlow, if_pos rfl] at hget
      have hEq : fl1 = fl := (Option.some_injective _ hget).symm
      subst hEq
      by_cases h2 : e2 = e
      · subst h2
        by_cases hs : sid2 ∈ fl1.consumers
        · exact ⟨fl1, by simp [addConsumer, getFlow, hs], hmem⟩
        · exact ⟨⟨fl1.publishers, fl1.consumers ++ [sid2]⟩,
            by simp [addConsumer, getFlow, hs], hmem⟩
      · refine ⟨fl1, ?_, hmem⟩
        simp [addConsumer, getFlow, h2]
    · rw [getFlow, if_neg hea] at hget
      by_cases h2 : e2 = a
      · subst h2
        exact ⟨fl1, by simp [addConsumer, getFlow, hea, hget], hmem⟩
      · obtain ⟨fl2, hget2, hmem2⟩ := ih ⟨fl1, hget, hmem⟩
        exact ⟨fl2, by simp [addConsumer, getFlow, hea, h2, hget2], hmem2⟩

theorem memCon_mono_addPublisher (m : List (String × Flow2)) (e2 sid2 : String)
    {e sid : String} (h : memCon m e sid) :
    memCon (addPublisher m e2 sid2) e sid := by
  induction m with
  | nil =>
    obtain ⟨fl, hget, -⟩ := h
    simp [getFlow] at hget
  | cons p rest ih =>
    obtain ⟨a, fl⟩ := p
    obtain ⟨fl1, hget, hmem⟩ := h
    by_cases hea : e = a
    · subst hea
      rw [getFlow, if_pos rfl] at hget
      have hEq : fl1 = fl := (Option.some_injective _ hget).symm
      subst hEq
      by_cases h2 : e2 = e
      · subst h2
        by_cases hs : sid2 ∈ fl1.publishers
        · exact ⟨fl1, by simp [addPublisher, getFlow, hs], hmem⟩
        · exact ⟨⟨fl1.publishers ++ [sid2], fl1.consumers⟩,
            by simp [addPublisher, getFlow, hs], hmem⟩
      · refine ⟨fl1, ?_, hmem⟩
        simp [addPublisher, getFlow, h2]
    · rw [getFlow, if_neg hea] at hget
      by_cases h2 : e2 = a
      · subst h2
        exact ⟨fl1, by simp [addPublisher, getFlow, hea, hget], hmem⟩
      · obtain ⟨fl2, hget2, hmem2⟩ := ih ⟨fl1, hget, hmem⟩
        exact ⟨fl2, by simp [addPublisher, getFlow, hea, h2, hget2], hmem2⟩

theorem memCon_mono_addConsumer (m : List (String × Flow2)) (e2 sid2 : String)
    {e sid : String} (h : memCon m e sid) :
    memCon (addConsumer m e2 sid2) e sid := by
  induction m with
  | nil =>
    obtain ⟨fl, hget, -⟩ := h
    simp [getFlow] at hget
  | cons p rest ih =>
    obtain ⟨a, fl⟩ := p
    obtain ⟨fl1, hget, hmem⟩ := h
    by_cases hea : e = a
    · subst hea
      rw [getFlow, if_pos rfl] at hget
      have hEq : fl1 = fl := (Option.some_injective _ hget).symm
      subst hEq
      by_cases h2 : e2 = e
      · subst h2
        by_cases hs : sid2 ∈ fl1.consumers
        · exact ⟨fl1, by simp [addConsumer, getFlow, hs], hmem⟩
        · exact ⟨⟨fl1.publishers, fl1.consumers ++ [sid2]⟩,
            by simp [addConsumer, getFlow, hs],
            by simp [List.mem_append, hmem]⟩
      · refine ⟨fl1, ?_, hmem⟩
        simp [addConsumer, getFlow, h2]
    · rw [getFlow, if_neg hea] at hget
      by_cases h2 : e2 = a
      · subst h2
        exact ⟨fl1, by simp [addConsumer, getFlow, hea, hget], hmem⟩
      · obtain ⟨fl2, hget2, hmem2⟩ := ih ⟨fl1, hget, hmem⟩
        exact ⟨fl2, by simp [addConsumer, getFlow, hea, h2, hget2], hmem2⟩

theorem addPublisher_of_memPub (m : List (String × Flow2)) (e sid : String)
    (h : memPub m e sid) : addPublisher m e sid = m := by
  induction m with
  | nil =>
    obtain ⟨fl, hget, -⟩ := h
    simp [getFlow] at hget
  | cons p rest ih =>
    obtain ⟨a, fl⟩ := p
    obtain ⟨fl1, hget, hmem⟩ := h
    by_cases hea : e = a
    · subst hea
      rw [getFlow, if_pos rfl] at hget
      have hEq : fl1 = fl := (Option.some_injective _ hget).symm
      subst hEq
      simp [addPublisher, hmem]
    · rw [getFlow, if_neg hea] at hget
      simp [addPublisher, hea, ih ⟨fl1, hget, hmem⟩]

theorem addConsumer_of_memCon (m : List (String × Flow2)) (e sid : String)
    (h : memCon m e sid) : addConsumer m e sid = m := by
  induction m with
  | nil =>
    obtain ⟨fl, hget, -⟩ := h
    simp [getFlow] at hget
  | cons p rest ih =>
    obtain ⟨a, fl⟩ := p
    obtain ⟨fl1, hget, hmem⟩ := h
    by_cases hea : e = a
    · subst hea
      rw [getFlow, if_pos rfl] at hget
      have hEq : fl1 = fl := (Option.some_injective _ hget).symm
      subst hEq
      simp [addConsumer, hmem]
    · rw [getFlow, if_neg hea] at hget
      simp [addConsumer, hea, ih ⟨fl1, hget, hmem⟩]

theorem memPub_foldPub_mono (names : List String)
    (m : List (String × Flow2)) (sid2 : String) {e sid : String}
    (h : memPub m e sid) :
    memPub (names.foldl (fun acc x => addPublisher acc x sid2) m) e sid := by
  induction names generalizing m with
  | nil => exact h
  | cons n rest ih =>
    rw [List.foldl_cons]
    exact ih _ (memPub_mono_addPublisher m n sid2 h)

theorem memPub_foldCon_mono (names : List String)
    (m : List (String × Flow2)) (sid2 : String) {e sid : String}
    (h : memPub m e sid) :
    memPub (names.foldl (fun acc x => addConsumer acc x sid2) m) e sid := by
  induction names generalizing m with
  | nil => exact h
  | cons n rest ih =>
    rw [List.foldl_cons]
    exact ih _ (memPub_mono_addConsumer m n sid2 h)

theorem memCon_foldCon_mono (names : List String)
    (m : List (String × Flow2)) (sid2 : String) {e sid : String}
    (h : memCon m e sid) :
    memCon (names.foldl (fun acc x => addConsumer acc x sid2) m) e sid := by
  induction names generalizing m with
  | nil => exact h
  | cons n rest ih =>
    rw [List.foldl_cons]
    exact ih _ (memCon_mono_addConsumer m n sid2 h)

theorem memPub_foldPub (names : List String) (m : List (String × Flow2))
    (sid : String) :
    ∀ e ∈ names, memPub (names.foldl (fun acc x => addPublisher acc x sid) m) e sid := by
  induction names generalizing m with
  | nil => intro e he; cases he
  | cons n rest ih =>
    intro e he
    rw [List.foldl_cons]
    rcases List.mem_cons.mp he with rfl | he2
    · exact memPub_foldPub_mono rest _ sid (memPub_addPublisher m e sid)
    · exact ih _ e he2

theorem memCon_foldCon (names : List String) (m : List (String × Flow2))
    (sid : String) :
    ∀ e ∈ names, memCon (names.foldl (fun acc x => addConsumer acc x sid) m) e sid := by
  induction names generalizing m with
  | nil => intro e he; cases he
  | cons n rest ih =>
    intro e he
    rw [List.foldl_cons]
    rcases List.mem_cons.mp he with rfl | he2
    · exact memCon_foldCon_mono rest _ sid (memCon_addConsumer m e sid)
    · exact ih _ e he2

theorem foldPub_eq_of_memPub (names : List String) (m : List (String × Flow2))
    (sid : String) (h : ∀ e ∈ names, memPub m e sid) :
    names.foldl (fun acc x => addPublisher acc x sid) m = m := by
  induction names with
  | nil => rfl
  | cons n rest ih =>
    rw [List.foldl_cons, addPublisher_of_memPub m n sid (h n (List.mem_cons_self n rest))]
    exact ih (fun e he => h e (List.mem_cons_of_mem n he))

theorem foldCon_eq_of_memCon (names : List String) (m : List (String × Flow2))
    (sid : String) (h : ∀ e ∈ names, memCon m e sid) :
    names.foldl (fun acc x => addConsumer acc x sid) m = m := by
  induction names with
  | nil => rfl
  | cons n rest ih =>
    rw [List.foldl_cons, addConsumer_of_memCon m n sid (h n (List.mem_cons_self n rest))]
    exact ih (fun e he => h e (List.mem_cons_of_mem n he))

/-- C1 (amended): in the extract_with_consumers merge, whose appends are
guarded by a membership check, processing the same fact a second time
leaves the whole flow state, hence every publishers and consumers list,
unchanged — from any starting state. -/
theorem addServiceFact_idem (m : List (String × Flow2)) (f : ServiceFact) :
    addServiceFact (addServiceFact m f) f = addServiceFact m f := by
  have hpub : ∀ e ∈ f.published, memPub (addServiceFact m f) e f.service_id := by
    intro e he
    exact memPub_foldCon_mono f.consumed _ f.service_id
      (memPub_foldPub f.published m f.service_id e he)
  have hcon : ∀ e ∈ f.consumed, memCon (addServiceFact m f) e f.service_id := by
    intro e he
    exact memCon_foldCon f.consumed _ f.service_id e he
  show f.consumed.foldl (fun acc e => addConsumer acc e f.service_id)
      (f.published.foldl (fun acc e => addPublisher acc e f.service_id)
        (addServiceFact m f)) = addServiceFact m f
  rw [foldPub_eq_of_memPub f.published _ f.service_id hpub]
  exact foldCon_eq_of_memCon f.consumed _ f.service_id hcon

/-- C1 counterexample: map_flows appends unconditionally, so an input in
which the same fact occurs twice records the service id twice — the
publishers list after processing the fact a second time differs from the
one after processing it once. -/
theorem map_flows_not_idempotent :
    (map_flows [ServiceFact.mk "A" ["X"] [], ServiceFact.mk "A" ["X"] []]).map
        (fun fl => fl.publishers) = [["A", "A"]] ∧
    (map_flows [ServiceFact.mk "A" ["X"] []]).map
        (fun fl => fl.publishers) = [["A"]] ∧
    map_flows [ServiceFact.mk "A" ["X"] [], ServiceFact.mk "A" ["X"] []] ≠
      map_flows [ServiceFact.mk "A" ["X"] []] :=
  ⟨by decide, by decide, by decide⟩

theorem flow2_nonempty_addPublisher (m : List (String × Flow2)) (e sid : String)
    (h : ∀ p ∈ m, p.2.publishers ≠ [] ∨ p.2.consumers ≠ []) :
    ∀ p ∈ addPublisher m e sid, p.2.publishers ≠ [] ∨ p.2.consumers ≠ [] := by
  induction m with
  | nil =>
    intro p hp
    simp only [addPublisher] at hp
    obtain rfl := List.mem_singleton.mp hp
    left
    simp
  | cons q rest ih =>
    obtain ⟨a, fl⟩ := q
    intro p hp
    by_cases hea : e = a
    · subst hea
      simp only [addPublisher, if_pos rfl] at hp
      rcases List.mem_cons.mp hp with rfl | hp2
      · by_cases hs : sid ∈ fl.publishers
        · simp only [if_pos hs]
          exact h (e, fl) (List.mem_cons_self _ _)
        · left
          simp [if_neg hs]
      · exact h p (List.mem_cons_of_mem _ hp2)
    · simp only [addPublisher, if_neg hea] at hp
      rcases List.mem_cons.mp hp with rfl | hp2
      · exact h (a, fl) (List.mem_cons_self _ _)
      · exact ih (fun q hq => h q (List.mem_cons_of_mem _ hq)) p hp2

theorem flow2_nonempty_addConsumer (m : List (String × Flow2)) (e sid : String)
    (h : ∀ p ∈ m, p.2.publishers ≠ [] ∨ p.2.consumers ≠ []) :
    ∀ p ∈ addConsumer m e sid, p.2.publishers ≠ [] ∨ p.2.consumers ≠ [] := by
  induction m with
  | nil =>
    intro p hp
    simp only [addConsumer] at hp
    obtain rfl := List.mem_singleton.mp hp
    right
    simp
  | cons q rest ih =>
    obtain ⟨a, fl⟩ := q
    intro p hp
    by_cases hea : e = a
    · subst hea
      simp only [addConsumer, if_pos rfl] at hp
      rcases List.mem_cons.mp hp with rfl | hp2
      · by_cases hs : sid ∈ fl.consumers
        · simp only [if_pos hs]
          exact h (e, fl) (List.mem_cons_self _ _)
        · right
          simp [if_neg hs]
      · exact h p (List.mem_cons_of_mem _ hp2)
    · simp only [addConsumer, if_neg hea] at hp
      rcases List.mem_cons.mp hp with rfl | hp2
      · exact h (a, fl) (List.mem_cons_self _ _)
      · exact ih (fun q hq => h q (List.mem_cons_of_mem _ hq)) p hp2

theorem flow2_nonempty_foldPub (names : List String)
    (m : List (String × Flow2)) (sid : String)
    (h : ∀ p ∈ m, p.2.publishers ≠ [] ∨ p.2.consumers ≠ []) :
    ∀ p ∈ names.foldl (fun acc x => addPublisher acc x sid) m,
      p.2.publishers ≠ [] ∨ p.2.consumers ≠ [] := by
  induction names generalizing m with
  | nil => exact h
  | cons n rest ih =>
    rw [List.foldl_cons]
    exact ih _ (flow2_nonempty_addPublisher m n sid h)

theorem flow2_nonempty_foldCon (names : List String)
    (m : List (String × Flow2)) (sid : String)
    (h : ∀ p ∈ m, p.2.publishers ≠ [] ∨ p.2.consumers ≠ []) :
    ∀ p ∈ names.foldl (fun acc x => addConsumer acc x sid) m,
      p.2.publishers ≠ [] ∨ p.2.consumers ≠ [] := by
  induction names generalizing m with
  | nil => exact h
  | cons n rest ih =>
    rw [List.foldl_cons]
    exact ih _ (flow2_nonempty_addConsumer m n sid h)

theorem flow2_nonempty_addServiceFact (m : List (String × Flow2))
    (f : ServiceFact)
    (h : ∀ p ∈ m, p.2.publishers ≠ [] ∨ p.2.consumers ≠ []) :
    ∀ p ∈ addServiceFact m f, p.2.publishers ≠ [] ∨ p.2.consumers ≠ [] := by
  show ∀ p ∈ f.consumed.foldl (fun acc e => addConsumer acc e f.service_id)
    (f.published.foldl (fun acc e => addPublisher acc e f.service_id) m), _
  exact flow2_nonempty_foldCon f.consumed _ f.service_id
    (flow2_nonempty_foldPub f.published m f.service_id h)

theorem flow2_nonempty_trackFold (facts : List ServiceFact)
    (m : List (String × Flow2))
    (h : ∀ p ∈ m, p.2.publishers ≠ [] ∨ p.2.consumers ≠ []) :
    ∀ p ∈ facts.foldl addServiceFact m,
      p.2.publishers ≠ [] ∨ p.2.consumers ≠ [] := by
  induction facts generalizing m with
  | nil => exact h
  | cons f rest ih =>
    rw [List.foldl_cons]
    exact ih _ (flow2_nonempty_addServiceFact m f h)

/-- C10: every entry of the mapping produced by either merge has a
non-empty publishers list or a non-empty consumers list, because a key is
created only when some fact publishes or consumes that event name. -/
theorem merge_no_empty_flow (facts : List ServiceFact) :
    (∀ fl ∈ map_flows facts, fl.publishers ≠ [] ∨ fl.consumers ≠ []) ∧
    (∀ p ∈ trackFlows facts, p.2.publishers ≠ [] ∨ p.2.consumers ≠ []) := by
  constructor
  · intro fl hfl
    obtain ⟨e, he, rfl⟩ := (mem_map_flows facts fl).mp hfl
    rcases he with h | h
    · left
      intro hnil
      rw [mkFlow_publishers] at hnil
      obtain ⟨f, hf, hm⟩ := h
      exact (collectedFrom_eq_nil_iff facts _ e).mp hnil f hf hm
    · right
      intro hnil
      rw [mkFlow_consumers] at hnil
      obtain ⟨f, hf, hm⟩ := h
      exact (collectedFrom_eq_nil_iff facts _ e).mp hnil f hf hm
  · exact flow2_nonempty_trackFold facts [] (by intro p hp; cases hp)

/-- Witness for C10 at a one-fact input, in both implementations. -/
theorem merge_no_empty_flow_witness :
    (EventFlow.mk "X" ["A"] [] true ∈ map_flows [ServiceFact.mk "A" ["X"] []] ∧
      ((EventFlow.mk "X" ["A"] [] true).publishers ≠ [] ∨
        (EventFlow.mk "X" ["A"] [] true).consumers ≠ [])) ∧
    (("X", Flow2.mk ["A"] []) ∈ trackFlows [ServiceFact.mk "A" ["X"] []] ∧
      ((("X", Flow2.mk ["A"] [])).2.publishers ≠ [] ∨
        (("X", Flow2.mk ["A"] [])).2.consumers ≠ [])) :=
  ⟨⟨by decide, (merge_no_empty_flow [ServiceFact.mk "A" ["X"] []]).1 _ (by decide)⟩,
   ⟨by decide, (merge_no_empty_flow [ServiceFact.mk "A" ["X"] []]).2 _ (by decide)⟩⟩
